import Mathlib

/-
Verification of the hxjson command-marshaling engine of coolsnady/hcd.

The engine (command registry, generic constructor NewCmd, MarshalCmd,
UnmarshalCmd, and the error taxonomy) is specified in spec.md and exercised
by the test files hxjson/walletsvrcmds_test.go, the chain-server command
tests, the websocket command tests, and the error-type tests.  The engine
implementation itself is not part of the provided sources, so the
definitions below are modelled from the spec (sections 3, 4.2, 4.3, 4.4,
4.5 and 6), with the concrete command descriptors (field order, kinds,
optionality and registered defaults) taken from the expectations recorded
in the test files.

Wire values are modelled exactly: a JSON value is a null, boolean, exact
rational number, string, ordered array, or ordered object.  Go pointer
fields (optional parameters) are modelled by an explicit sum: a field of a
command value is a required value, a present optional value, or the absent
optional state.
-/

set_option maxHeartbeats 1000000

namespace Hxjson

/-! ### Wire values -/

mutual
/-- A JSON wire value: the untyped positional parameters of a request are a
sequence of these.  Numbers are exact rationals, which covers every numeric
literal appearing in the tests without float rounding. -/
inductive JValue where
  | null
  | bool (b : Bool)
  | num (q : Rat)
  | str (s : String)
  | arr (items : JArr)
  | obj (fields : JObj)
deriving DecidableEq
/-- An ordered sequence of wire values (the payload of JValue.arr). -/
inductive JArr where
  | nil
  | cons (v : JValue) (rest : JArr)
deriving DecidableEq
/-- An ordered list of key/value members (the payload of JValue.obj). -/
inductive JObj where
  | nil
  | cons (key : String) (v : JValue) (rest : JObj)
deriving DecidableEq
end

/-- Look up a key in an object, first match wins (Go decodes JSON object
keys into struct fields / map entries by name). -/
def JObj.lookupKey (k : String) : JObj → Option JValue
  | .nil => none
  | .cons key v rest => if key = k then some v else JObj.lookupKey k rest

/-! ### Error taxonomy

Modelled from the spec: section 4.5 states a flat enumeration of error
kinds, each with a distinct stable display name, and the test
TestErrorCodeStringer pins the assigned codes, their names, and the
fallback rendering Unknown ErrorCode (N) for unassigned values.  The Go
source declares the codes with iota starting at 0, in the order the test
lists them. -/

/-- ErrorCode identifies a kind of error (a Go int). -/
abbrev ErrorCode := Int

def ErrDuplicateMethod : ErrorCode := 0
def ErrInvalidUsageFlags : ErrorCode := 1
def ErrInvalidType : ErrorCode := 2
def ErrEmbeddedType : ErrorCode := 3
def ErrUnexportedField : ErrorCode := 4
def ErrUnsupportedFieldType : ErrorCode := 5
def ErrNonOptionalField : ErrorCode := 6
def ErrNonOptionalDefault : ErrorCode := 7
def ErrMismatchedDefault : ErrorCode := 8
def ErrUnregisteredMethod : ErrorCode := 9
def ErrNumParams : ErrorCode := 10
def ErrMissingDescription : ErrorCode := 11

/-- The number of assigned error codes (numErrorCodes, exported to the
tests as TstNumErrorCodes). -/
def TstNumErrorCodes : Int := 12

/-- The stable display names of the assigned codes, indexed by code value. -/
def errorCodeStrings : List String :=
  ["ErrDuplicateMethod", "ErrInvalidUsageFlags", "ErrInvalidType",
   "ErrEmbeddedType", "ErrUnexportedField", "ErrUnsupportedFieldType",
   "ErrNonOptionalField", "ErrNonOptionalDefault", "ErrMismatchedDefault",
   "ErrUnregisteredMethod", "ErrNumParams", "ErrMissingDescription"]

/-- Modelled from the spec: the String method of ErrorCode returns the
stable display name of an assigned code and the decimal fallback form for
any unassigned value. -/
def ErrorCode.display (c : ErrorCode) : String :=
  if 0 ≤ c ∧ c < TstNumErrorCodes then errorCodeStrings.getD c.toNat ""
  else "Unknown ErrorCode (" ++ toString c ++ ")"

/-- Error is the structured error value of the engine: an enumerated kind
plus a human-readable message. -/
structure Error where
  Code : ErrorCode
  Message : String
deriving DecidableEq

/-- Modelled from the spec: the Error method of the Error type (the Go
error interface implementation) returns the message. -/
def Error.errorText (e : Error) : String := e.Message

def invalidTypeErr : Error := ⟨ErrInvalidType, "invalid type for parameter"⟩

def numParamsErr : Error := ⟨ErrNumParams, "incorrect number of parameters"⟩

def unregisteredErr (method : String) : Error :=
  ⟨ErrUnregisteredMethod, "unregistered method " ++ method⟩

/-! ### Field shapes and descriptors -/

mutual
/-- The supported value kinds of a command field (spec section 3): boolean,
integer family, floating point, string, ordered sequence, string-keyed
mapping to floating point, and nested request object.  The optional
wrapper is carried separately in the field descriptor. -/
inductive JShape where
  | jBool
  | jInt
  | jFloat
  | jString
  | jList (elem : JShape)
  | jMapFloat
  | jObjShape (fields : JFields)
deriving DecidableEq
/-- The declared fields of a nested request object, in declaration order. -/
inductive JFields where
  | nil
  | cons (name : String) (s : JShape) (rest : JFields)
deriving DecidableEq
end

mutual
/-- The zero value of a shape: what Go json.Unmarshal leaves in a struct
field that the wire object did not mention. -/
def zeroValue : JShape → JValue
  | .jBool => .bool false
  | .jInt => .num 0
  | .jFloat => .num 0
  | .jString => .str ""
  | .jList _ => .arr .nil
  | .jMapFloat => .obj .nil
  | .jObjShape fds => .obj (zeroFields fds)
/-- Zero values for every declared field of a nested object. -/
def zeroFields : JFields → JObj
  | .nil => .nil
  | .cons n s rest => .cons n (zeroValue s) (zeroFields rest)
end

/-- Descriptor of one command field (spec section 3): wire name, value
kind, whether the field is the optional wrapper, and the registered
default when one was supplied at registration. -/
structure FieldDescr where
  name : String
  shape : JShape
  optional : Bool
  dflt : Option JValue
deriving DecidableEq

/-- Descriptor of one registered command: unique method name plus the
ordered field descriptors. -/
structure CmdDescr where
  method : String
  fields : List FieldDescr
deriving DecidableEq

/-- One field of a concrete command value.  Go represents optional fields
as pointers; the explicit sum distinguishes a required value, a present
optional value, and the absent (nil-pointer) state. -/
inductive FieldVal where
  | reqVal (v : JValue)
  | optVal (v : JValue)
  | optAbsent
deriving DecidableEq

/-- A concrete command value: the method that identifies its shape (the
marshal-side lookup key of spec section 3) plus its fields in declaration
order. -/
structure CmdVal where
  method : String
  args : List FieldVal
deriving DecidableEq

/-- A JSON-RPC request envelope (spec section 6). -/
structure Request where
  jsonrpc : String
  method : String
  params : List JValue
  id : Int
deriving DecidableEq

/-- Equality of fallible results is decidable, which lets concrete runs of
the engine be checked by evaluation. -/
instance {e a : Type} [DecidableEq e] [DecidableEq a] : DecidableEq (Except e a) :=
  fun x y =>
    match x, y with
    | .error b, .error c =>
      if h : b = c then isTrue (by rw [h]) else isFalse (by intro hc; cases hc; exact h rfl)
    | .ok b, .ok c =>
      if h : b = c then isTrue (by rw [h]) else isFalse (by intro hc; cases hc; exact h rfl)
    | .error _, .ok _ => isFalse (by intro hc; cases hc)
    | .ok _, .error _ => isFalse (by intro hc; cases hc)

/-! ### Decoding a wire value against a declared shape

Modelled from the spec: sections 4.2 and 4.4 require each supplied wire
value to convert into the declared value kind of its field, signalling an
invalid-type error otherwise.  Decoding a wire object into a nested
request shape behaves like Go json.Unmarshal into the target struct: the
declared fields are filled by name, missing fields receive the zero value,
unknown keys are dropped, and the result is re-serialized in declaration
order (the createrawtransaction test shows the tree field appearing as 0
even when the input text omitted it).  The recursion is fuelled; the
wrapper supplies fuel larger than the combined structural size, so the
fuel never runs out on meaningful inputs. -/

mutual
def normalizeF : Nat → JShape → JValue → Option JValue
  | 0, _, _ => none
  | fuel+1, sh, v =>
    match sh, v with
    | .jBool, .bool b => some (.bool b)
    | .jInt, .num q => if q.den = 1 then some (.num q) else none
    | .jFloat, .num q => some (.num q)
    | .jString, .str s => some (.str s)
    | .jList es, .arr vs => Option.map JValue.arr (normArrF fuel es vs)
    | .jMapFloat, .obj ms => Option.map JValue.obj (normMapF fuel ms)
    | .jObjShape fds, .obj ms => Option.map JValue.obj (normObjF fuel fds ms)
    | _, _ => none
def normArrF : Nat → JShape → JArr → Option JArr
  | 0, _, _ => none
  | _+1, _, .nil => some .nil
  | fuel+1, es, .cons v rest =>
    match normalizeF fuel es v, normArrF fuel es rest with
    | some u, some tail => some (.cons u tail)
    | _, _ => none
def normMapF : Nat → JObj → Option JObj
  | 0, _ => none
  | _+1, .nil => some .nil
  | fuel+1, .cons k v rest =>
    match v, normMapF fuel rest with
    | .num q, some tail => some (.cons k (.num q) tail)
    | _, _ => none
def normObjF : Nat → JFields → JObj → Option JObj
  | 0, _, _ => none
  | _+1, .nil, _ => some .nil
  | fuel+1, .cons n s rest, ms =>
    let hv := match JObj.lookupKey n ms with
      | some v => normalizeF fuel s v
      | none => some (zeroValue s)
    match hv, normObjF fuel rest ms with
    | some u, some tail => some (.cons n u tail)
    | _, _ => none
end

mutual
/-- Structural size of a shape, used to bound the decoding fuel. -/
def shapeSize : JShape → Nat
  | .jBool => 1
  | .jInt => 1
  | .jFloat => 1
  | .jString => 1
  | .jList e => 1 + shapeSize e
  | .jMapFloat => 1
  | .jObjShape fds => 1 + fieldsSize fds
def fieldsSize : JFields → Nat
  | .nil => 1
  | .cons _ s rest => 1 + shapeSize s + fieldsSize rest
end

mutual
/-- Structural size of a wire value, used to bound the decoding fuel. -/
def valueSize : JValue → Nat
  | .null => 1
  | .bool _ => 1
  | .num _ => 1
  | .str _ => 1
  | .arr vs => 1 + arrSize vs
  | .obj ms => 1 + objSize ms
def arrSize : JArr → Nat
  | .nil => 1
  | .cons v rest => 1 + valueSize v + arrSize rest
def objSize : JObj → Nat
  | .nil => 1
  | .cons _ v rest => 1 + valueSize v + objSize rest
end

/-- Decode one wire value against a declared shape (total wrapper; the
fuel exceeds any possible recursion depth). -/
def normalize (sh : JShape) (v : JValue) : Option JValue :=
  normalizeF (shapeSize sh + valueSize v + 1) sh v

/-! ### JSON text parsing

Modelled from the spec: section 4.2 accepts JSON text for any field whose
declared kind is a nested object, sequence, or mapping, and section 6
notes nested structured parameters may arrive pre-serialized as JSON text
that must be parsed before use.  The grammar covers the constructs used by
the command tests: null, booleans, decimal numbers with an optional
fraction, strings with backslash escapes, arrays and objects. -/

def quoteChar : Char := Char.ofNat 34

def lbraceChar : Char := Char.ofNat 123

def rbraceChar : Char := Char.ofNat 125

def isWsChar (c : Char) : Bool :=
  c = ' ' || c = '\n' || c = '\t' || c = '\r'

def skipWs : List Char → List Char
  | [] => []
  | c :: rest => if isWsChar c then skipWs rest else c :: rest

def unescapeChar (c : Char) : Char :=
  if c = 'n' then '\n' else if c = 't' then '\t' else if c = 'r' then '\r' else c

def parseStringChars : List Char → Option (List Char × List Char)
  | [] => none
  | c :: rest =>
    if c = quoteChar then some ([], rest)
    else if c = '\\' then
      match rest with
      | [] => none
      | e :: rest2 =>
        match parseStringChars rest2 with
        | none => none
        | some (cs, r) => some (unescapeChar e :: cs, r)
    else
      match parseStringChars rest with
      | none => none
      | some (cs, r) => some (c :: cs, r)

def parseDigits : List Char → Nat → Nat → Nat × Nat × List Char
  | [], acc, cnt => (acc, cnt, [])
  | c :: rest, acc, cnt =>
    if c.isDigit then parseDigits rest (acc * 10 + (c.toNat - 48)) (cnt + 1)
    else (acc, cnt, c :: rest)

def parseNumber (l : List Char) : Option (JValue × List Char) :=
  let signSplit : Bool × List Char :=
    match l with
    | c :: rest => if c = '-' then (true, rest) else (false, l)
    | [] => (false, [])
  match parseDigits signSplit.2 0 0 with
  | (_, 0, _) => none
  | (ip, _+1, l2) =>
    match l2 with
    | c :: rest =>
      if c = '.' then
        match parseDigits rest 0 0 with
        | (_, 0, _) => none
        | (fp, k+1, l3) =>
          let q : Rat := mkRat (ip * 10 ^ (k + 1) + fp) (10 ^ (k + 1))
          some (.num (if signSplit.1 then -q else q), l3)
      else some (.num (if signSplit.1 then -(mkRat ip 1) else mkRat ip 1), l2)
    | [] => some (.num (if signSplit.1 then -(mkRat ip 1) else mkRat ip 1), [])

mutual
def parseValue : Nat → List Char → Option (JValue × List Char)
  | 0, _ => none
  | fuel+1, l =>
    match skipWs l with
    | [] => none
    | c :: rest =>
      if c = quoteChar then
        match parseStringChars rest with
        | none => none
        | some (cs, r) => some (.str (String.mk cs), r)
      else if c = '[' then
        match skipWs rest with
        | c2 :: r2 =>
          if c2 = ']' then some (.arr .nil, r2)
          else
            match parseElems fuel (c2 :: r2) with
            | none => none
            | some (vs, r) => some (.arr vs, r)
        | [] => none
      else if c = lbraceChar then
        match skipWs rest with
        | c2 :: r2 =>
          if c2 = rbraceChar then some (.obj .nil, r2)
          else
            match parseMembers fuel (c2 :: r2) with
            | none => none
            | some (ms, r) => some (.obj ms, r)
        | [] => none
      else if c = 't' then
        match rest with
        | 'r' :: 'u' :: 'e' :: r => some (.bool true, r)
        | _ => none
      else if c = 'f' then
        match rest with
        | 'a' :: 'l' :: 's' :: 'e' :: r => some (.bool false, r)
        | _ => none
      else if c = 'n' then
        match rest with
        | 'u' :: 'l' :: 'l' :: r => some (.null, r)
        | _ => none
      else parseNumber (c :: rest)
def parseElems : Nat → List Char → Option (JArr × List Char)
  | 0, _ => none
  | fuel+1, l =>
    match parseValue fuel l with
    | none => none
    | some (v, r) =>
      match skipWs r with
      | c :: r2 =>
        if c = ',' then
          match parseElems fuel r2 with
          | none => none
          | some (vs, r3) => some (.cons v vs, r3)
        else if c = ']' then some (.cons v .nil, r2)
        else none
      | [] => none
def parseMembers : Nat → List Char → Option (JObj × List Char)
  | 0, _ => none
  | fuel+1, l =>
    match skipWs l with
    | c :: rest =>
      if c = quoteChar then
        match parseStringChars rest with
        | none => none
        | some (cs, r) =>
          match skipWs r with
          | c2 :: r2 =>
            if c2 = ':' then
              match parseValue fuel r2 with
              | none => none
              | some (v, r3) =>
                match skipWs r3 with
                | c3 :: r4 =>
                  if c3 = ',' then
                    match parseMembers fuel r4 with
                    | none => none
                    | some (ms, r5) => some (.cons (String.mk cs) v ms, r5)
                  else if c3 = rbraceChar then some (.cons (String.mk cs) v .nil, r4)
                  else none
                | [] => none
            else none
          | [] => none
      else none
    | [] => none
end

/-- Parse a complete JSON document from a string. -/
def parseJSON (s : String) : Option JValue :=
  match parseValue (s.length + 1) s.data with
  | none => none
  | some (v, r) => if (skipWs r).isEmpty then some v else none

/-! ### Command registry

Modelled from the spec: the registry maps method names to command
descriptors (spec section 3).  The field order, kinds, optionality and
registered defaults of the commands used by the claims are taken from the
expectations of TestChainSvrCmds and TestWalletSvrCmds: getbalance has an
optional account with no default and an optional minconf defaulting to 1,
importaddress has a required address and an optional rescan defaulting to
true, verifychain has optional checklevel and checkdepth defaulting to 3
and 288, addnode has two required strings, and createrawtransaction has a
required sequence of transaction inputs, a required address-to-amount
mapping, and optional locktime and expiry with no defaults. -/

def transactionInputShape : JShape :=
  .jObjShape (.cons "txid" .jString (.cons "vout" .jInt (.cons "tree" .jInt .nil)))

def addNodeDescr : CmdDescr :=
  ⟨"addnode",
   [⟨"addr", .jString, false, none⟩,
    ⟨"subcmd", .jString, false, none⟩]⟩

def createRawTransactionDescr : CmdDescr :=
  ⟨"createrawtransaction",
   [⟨"inputs", .jList transactionInputShape, false, none⟩,
    ⟨"amounts", .jMapFloat, false, none⟩,
    ⟨"locktime", .jInt, true, none⟩,
    ⟨"expiry", .jInt, true, none⟩]⟩

def getBalanceDescr : CmdDescr :=
  ⟨"getbalance",
   [⟨"account", .jString, true, none⟩,
    ⟨"minconf", .jInt, true, some (.num 1)⟩]⟩

def importAddressDescr : CmdDescr :=
  ⟨"importaddress",
   [⟨"address", .jString, false, none⟩,
    ⟨"rescan", .jBool, true, some (.bool true)⟩]⟩

def verifyChainDescr : CmdDescr :=
  ⟨"verifychain",
   [⟨"checklevel", .jInt, true, some (.num 3)⟩,
    ⟨"checkdepth", .jInt, true, some (.num 288)⟩]⟩

/-- The registered commands (the subset of the roughly eighty commands
that the claims exercise). -/
def Registry : List CmdDescr :=
  [addNodeDescr, createRawTransactionDescr, getBalanceDescr,
   importAddressDescr, verifyChainDescr]

/-- Resolve a method name to its descriptor (spec sections 4.2 and 4.4). -/
def findDescr (method : String) : Option CmdDescr :=
  Registry.find? (fun d => d.method == method)

/-- Number of required fields of a command. -/
def numReq (d : CmdDescr) : Nat := d.fields.countP (fun f => !f.optional)

/-- Number of optional fields of a command. -/
def numOpt (d : CmdDescr) : Nat := d.fields.countP (fun f => f.optional)

/-- The state an omitted optional field decodes to: the registered default
when one exists, the absent state otherwise (spec sections 4.2 and 4.4). -/
def defaultField (f : FieldDescr) : FieldVal :=
  match f.dflt with
  | some v => .optVal v
  | none => .optAbsent

/-! ### Marshaler

Modelled from the spec: section 4.3.  MarshalCmd resolves the command
value to its descriptor, serializes the fields in declared order, and
applies the trailing-omission rule: scanning from the last field backward,
a field is dropped exactly when every field from it to the end is an
absent optional field or an optional field whose value deep-equals its
registered default.  An absent optional field that survives the trim (a
non-trailing absence) is a caller contract violation and yields a
param-position error instead of a wire null. -/

/-- A field may be omitted from the tail: it is an absent optional field
or an optional field whose value deep-equals its registered default. -/
def omittable (fa : FieldDescr × FieldVal) : Bool :=
  match fa.2 with
  | .reqVal _ => false
  | .optAbsent => fa.1.optional
  | .optVal v => fa.1.optional && decide (fa.1.dflt = some v)

/-- Drop the maximal suffix of elements satisfying p: an element is
dropped exactly when it and everything after it satisfies p. -/
def trimSuffix (p : α → Bool) : List α → List α
  | [] => []
  | x :: xs =>
    let r := trimSuffix p xs
    if r.isEmpty && p x then [] else x :: r

/-- Effectful map over a list that stops at the first error. -/
def exMapM (f : α → Except Error β) : List α → Except Error (List β)
  | [] => .ok []
  | x :: xs =>
    match f x with
    | .error e => .error e
    | .ok y =>
      match exMapM f xs with
      | .error e => .error e
      | .ok ys => .ok (y :: ys)

/-- Serialize one surviving field; a surviving absent optional field is a
param-position error (spec section 4.3). -/
def emitField (fa : FieldDescr × FieldVal) : Except Error JValue :=
  match fa.2 with
  | .reqVal v => .ok v
  | .optVal v => .ok v
  | .optAbsent =>
    .error ⟨ErrNumParams,
            "parameter " ++ fa.1.name ++ " is absent but a later parameter is set"⟩

/-- The emitted positional parameter list of a command value. -/
def marshalParams (l : List (FieldDescr × FieldVal)) : Except Error (List JValue) :=
  exMapM emitField (trimSuffix omittable l)

/-- Modelled from the spec: MarshalCmd (section 4.3) converts a command
value plus envelope data into the wire request, omitting a maximal
trailing run of default-valued or absent optional parameters. -/
def MarshalCmd (jsonrpc : String) (id : Int) (cmd : CmdVal) : Except Error Request :=
  match findDescr cmd.method with
  | none => .error (unregisteredErr cmd.method)
  | some d =>
    if cmd.args.length = d.fields.length then
      match marshalParams (d.fields.zip cmd.args) with
      | .error e => .error e
      | .ok ps => .ok ⟨jsonrpc, cmd.method, ps, id⟩
    else .error ⟨ErrInvalidType, "command value does not match the registered shape"⟩

/-! ### Unmarshaler

Modelled from the spec: section 4.4.  UnmarshalCmd resolves the
descriptor by method name, validates the parameter count against the
closed interval from numRequired to numRequired plus numOptional, decodes
each supplied positional element against its declared kind, and sets
every field beyond the supplied count to its registered default or to the
absent state. -/

def decodeFields : List FieldDescr → List JValue → Except Error (List FieldVal)
  | [], [] => .ok []
  | [], _ :: _ => .error numParamsErr
  | f :: fs, [] =>
    if f.optional then
      match decodeFields fs [] with
      | .error e => .error e
      | .ok rest => .ok (defaultField f :: rest)
    else .error numParamsErr
  | f :: fs, p :: ps =>
    match normalize f.shape p with
    | none => .error invalidTypeErr
    | some v =>
      match decodeFields fs ps with
      | .error e => .error e
      | .ok rest => .ok ((if f.optional then .optVal v else .reqVal v) :: rest)

/-- Modelled from the spec: UnmarshalCmd (section 4.4) converts a wire
request back into a concrete, fully-defaulted command value. -/
def UnmarshalCmd (req : Request) : Except Error CmdVal :=
  match findDescr req.method with
  | none => .error (unregisteredErr req.method)
  | some d =>
    if req.params.length < numReq d || d.fields.length < req.params.length then
      .error numParamsErr
    else
      match decodeFields d.fields req.params with
      | .error e => .error e
      | .ok args => .ok ⟨req.method, args⟩

/-! ### Generic constructor

Modelled from the spec: section 4.2.  NewCmd looks up the method,
validates the argument count, converts each loosely-typed argument into
the declared value kind (accepting JSON text for nested object, sequence
and mapping kinds), and fills the remaining fields from registered
defaults or the absent state. -/

/-- A loosely-typed constructor argument: either a concrete value (the
wire image of a Go value) or a Go string. -/
inductive Arg where
  | val (v : JValue)
  | text (s : String)

/-- Parse JSON text against a declared target shape. -/
def parseNorm (sh : JShape) (s : String) : Except Error JValue :=
  match parseJSON s with
  | none => .error invalidTypeErr
  | some v =>
    match normalize sh v with
    | none => .error invalidTypeErr
    | some u => .ok u

/-- Convert one supplied argument into the declared kind of its field: an
exact kind match passes through, and JSON text is accepted for a nested
object, sequence or mapping kind and parsed against that target shape. -/
def convertArg (f : FieldDescr) (a : Arg) : Except Error JValue :=
  match a with
  | .val v =>
    match normalize f.shape v with
    | none => .error invalidTypeErr
    | some u => .ok u
  | .text s =>
    match f.shape with
    | .jString => .ok (.str s)
    | .jList es => parseNorm (.jList es) s
    | .jMapFloat => parseNorm .jMapFloat s
    | .jObjShape fds => parseNorm (.jObjShape fds) s
    | _ => .error invalidTypeErr

def convFields : List FieldDescr → List Arg → Except Error (List FieldVal)
  | [], [] => .ok []
  | [], _ :: _ => .error numParamsErr
  | f :: fs, [] =>
    if f.optional then
      match convFields fs [] with
      | .error e => .error e
      | .ok rest => .ok (defaultField f :: rest)
    else .error numParamsErr
  | f :: fs, a :: args =>
    match convertArg f a with
    | .error e => .error e
    | .ok v =>
      match convFields fs args with
      | .error e => .error e
      | .ok rest => .ok ((if f.optional then .optVal v else .reqVal v) :: rest)

/-- Modelled from the spec: NewCmd (section 4.2) builds a fully-populated
command value from a method name and loosely-typed positional arguments. -/
def NewCmd (method : String) (args : List Arg) : Except Error CmdVal :=
  match findDescr method with
  | none => .error (unregisteredErr method)
  | some d =>
    if args.length < numReq d || d.fields.length < args.length then
      .error numParamsErr
    else
      match convFields d.fields args with
      | .error e => .error e
      | .ok fields => .ok ⟨method, fields⟩

/-! ### Wire rendering

Modelled from the spec: section 6 fixes the byte-exact envelope
    Request: version, method, params, id, with the keys in that order and
the protocol version carried as a literal string.  Numbers render as Go
encoding/json renders the numeric values appearing in the tests: integers
in decimal, finite decimal fractions with a point and no trailing
zeros. -/

def escapeChar (c : Char) : String :=
  if c = quoteChar then "\\\"" else if c = '\\' then "\\\\" else String.singleton c

def escapeString (s : String) : String := String.join (s.data.map escapeChar)

def renderString (s : String) : String := "\"" ++ escapeString s ++ "\""

/-- Smallest positive power of ten the denominator divides, when one
exists below 31. -/
def pow10Exp (d : Nat) : Option Nat :=
  (List.range 31).find? (fun k => decide (0 < k ∧ d ∣ 10 ^ k))

def padZeros (s : String) (k : Nat) : String :=
  String.mk (List.replicate (k - s.length) '0') ++ s

def renderNum (q : Rat) : String :=
  if q.den = 1 then toString q.num
  else
    match pow10Exp q.den with
    | some k =>
      let scaled : Nat := q.num.natAbs * 10 ^ k / q.den
      let ip := scaled / 10 ^ k
      let fp := scaled % 10 ^ k
      (if q.num < 0 then "-" else "") ++ toString ip ++ "." ++ padZeros (toString fp) k
    | none => toString q.num ++ "/" ++ toString q.den

mutual
def renderJV : JValue → String
  | .null => "null"
  | .bool b => if b then "true" else "false"
  | .num q => renderNum q
  | .str s => renderString s
  | .arr items => "[" ++ renderArr items ++ "]"
  | .obj ms => "\x7b" ++ renderObj ms ++ "\x7d"
def renderArr : JArr → String
  | .nil => ""
  | .cons v .nil => renderJV v
  | .cons v rest => renderJV v ++ "," ++ renderArr rest
def renderObj : JObj → String
  | .nil => ""
  | .cons k v .nil => renderString k ++ ":" ++ renderJV v
  | .cons k v rest => renderString k ++ ":" ++ renderJV v ++ "," ++ renderObj rest
end

def renderParams : List JValue → String
  | [] => ""
  | [v] => renderJV v
  | v :: rest => renderJV v ++ "," ++ renderParams rest

/-- Render the request envelope to its exact byte sequence. -/
def renderRequest (req : Request) : String :=
  "\x7b\"jsonrpc\":" ++ renderString req.jsonrpc ++
  ",\"method\":" ++ renderString req.method ++
  ",\"params\":[" ++ renderParams req.params ++
  "],\"id\":" ++ toString req.id ++ "\x7d"

/-- MarshalCmd followed by byte-level rendering: the full marshal path of
the Go MarshalCmd, which returns bytes. -/
def MarshalCmdBytes (jsonrpc : String) (id : Int) (cmd : CmdVal) : Except Error String :=
  match MarshalCmd jsonrpc id cmd with
  | .error e => .error e
  | .ok req => .ok (renderRequest req)

/-! ### Well-formedness predicates

These decidable predicates express, against a descriptor, when a command
value is well-typed and fully defaulted (spec sections 3 and 4.2: every
field holds a supplied value, a registered default, or an explicit absent
marker, and a field can only be absent when it has no default), and when a
wire parameter list is well-typed. -/

/-- One field value agrees with its descriptor: required fields hold a
required value, optional fields are present or absent, present values
survive decoding unchanged, and an absent field has no registered default
(a fully-defaulted value never leaves a defaulted field absent). -/
def validPair (f : FieldDescr) (a : FieldVal) : Bool :=
  match a with
  | .reqVal v => !f.optional && decide (normalize f.shape v = some v)
  | .optVal v => f.optional && decide (normalize f.shape v = some v)
  | .optAbsent => f.optional && decide (f.dflt = none)

def validPairs (l : List (FieldDescr × FieldVal)) : Bool :=
  l.all (fun fa => validPair fa.1 fa.2)

/-- Every absent field is genuinely trailing: all fields at and after it
pass the omission test, so marshaling never has to represent a hole. -/
def noAbsentKept : List (FieldDescr × FieldVal) → Bool
  | [] => true
  | fa :: rest =>
    (match fa.2 with
     | .optAbsent => omittable fa && rest.all omittable
     | _ => true) && noAbsentKept rest

/-- All required fields precede all optional fields (the structural
registration invariant of spec section 3). -/
def requiredFirst : List FieldDescr → Bool
  | [] => true
  | f :: fs => if f.optional then fs.all (fun g => g.optional) else requiredFirst fs

/-- Each supplied wire parameter decodes to itself: it is already in the
normal form that decoding produces. -/
def normedParams : List FieldDescr → List JValue → Bool
  | _, [] => true
  | [], _ :: _ => true
  | f :: fs, p :: ps => decide (normalize f.shape p = some p) && normedParams fs ps

/-- The parameter list is in minimal form: its last element, if any, does
not pass the omission test once decoded, so re-marshaling keeps it. -/
def minimalTail : List FieldDescr → List JValue → Bool
  | _, [] => true
  | [], _ :: _ => true
  | f :: _, [p] => !omittable (f, if f.optional then .optVal p else .reqVal p)
  | _ :: fs, _ :: ps => minimalTail fs ps

/-- The command value a request with the given parameters decodes to:
supplied parameters fill the leading fields, the rest are defaulted. -/
def mkArgs : List FieldDescr → List JValue → List FieldVal
  | fs, [] => fs.map defaultField
  | [], _ :: _ => []
  | f :: fs, p :: ps => (if f.optional then .optVal p else .reqVal p) :: mkArgs fs ps

/-- Placeholder descriptor used with getD when indexing past the end of a
field list; its absence of a default matches the absent state. -/
def dummyField : FieldDescr := ⟨"", .jBool, true, none⟩

/-- Modelled from the spec: the typed constructor
NewCreateRawTransactionCmd of the createrawtransaction command, taking the
already-parsed structured inputs and amounts plus the optional locktime
and expiry (the test TestChainSvrCmds builds the static command this
way). -/
def NewCreateRawTransactionCmd (inputs amounts : JValue)
    (lockTime expiry : Option Int) : CmdVal :=
  ⟨"createrawtransaction",
   [.reqVal inputs, .reqVal amounts,
    match lockTime with
    | some n => .optVal (.num n)
    | none => .optAbsent,
    match expiry with
    | some n => .optVal (.num n)
    | none => .optAbsent]⟩

/-! ### Library lemmas about the trailing trim and the effectful map -/

theorem trimSuffix_nil_of_all {α : Type} (p : α → Bool) (l : List α)
    (h : ∀ a ∈ l, p a = true) : trimSuffix p l = [] := by
  induction l with
  | nil => rfl
  | cons x xs ih =>
    have hx : p x = true := h x (List.mem_cons_self x xs)
    have hxs := ih (fun a ha => h a (List.mem_cons_of_mem x ha))
    simp [trimSuffix, hxs, hx]

theorem trimSuffix_length_le_iff {α : Type} (p : α → Bool) :
    ∀ (l : List α) (i : Nat),
      ((trimSuffix p l).length ≤ i ↔ ∀ a ∈ l.drop i, p a = true) := by
  intro l
  induction l with
  | nil => intro i; simp [trimSuffix]
  | cons x xs ih =>
    intro i
    cases i with
    | zero =>
      simp only [Nat.le_zero, List.length_eq_zero, List.drop_zero]
      constructor
      · intro h a ha
        by_cases hc : (trimSuffix p xs).isEmpty && p x
        · rcases List.mem_cons.mp ha with rfl | hmem
          · exact (Bool.and_eq_true_iff.mp hc).2
          · have hlen : (trimSuffix p xs).length ≤ 0 := by
              have := (Bool.and_eq_true_iff.mp hc).1
              simp [List.isEmpty_iff_length_eq_zero.mp this]
            exact (ih 0).mp hlen a (by simpa using hmem)
        · simp [trimSuffix, hc] at h
      · intro h
        have hx : p x = true := h x (List.mem_cons_self x xs)
        have hlen : (trimSuffix p xs).length ≤ 0 :=
          (ih 0).mpr (by simpa using fun a ha => h a (List.mem_cons_of_mem x ha))
        have he : (trimSuffix p xs).isEmpty = true := by
          simpa [List.isEmpty_iff_length_eq_zero] using hlen
        simp [trimSuffix, he, hx]
    | succ i =>
      have step : (trimSuffix p (x :: xs)).length ≤ i + 1 ↔
          (trimSuffix p xs).length ≤ i := by
        by_cases hc : (trimSuffix p xs).isEmpty && p x
        · have he := (Bool.and_eq_true_iff.mp hc).1
          simp [trimSuffix, hc, List.isEmpty_iff_length_eq_zero.mp he]
        · simp [trimSuffix, hc, Nat.succ_le_succ_iff]
      rw [step, List.drop_succ_cons, ih i]

theorem trimSuffix_length_le {α : Type} (p : α → Bool) (l : List α) :
    (trimSuffix p l).length ≤ l.length :=
  (trimSuffix_length_le_iff p l l.length).mpr (by simp)

theorem trimSuffix_take {α : Type} (p : α → Bool) :
    ∀ l : List α, trimSuffix p l = l.take (trimSuffix p l).length := by
  intro l
  induction l with
  | nil => rfl
  | cons x xs ih =>
    by_cases hc : (trimSuffix p xs).isEmpty && p x
    · simp [trimSuffix, hc]
    · conv_lhs => simp only [trimSuffix]
      rw [if_neg (by simpa using hc)]
      have hlen : (trimSuffix p (x :: xs)).length = (trimSuffix p xs).length + 1 := by
        simp [trimSuffix, hc]
      rw [hlen, List.take_succ_cons, ← ih]

theorem trimSuffix_cons {α : Type} (p : α → Bool) (x : α) (xs : List α) :
    trimSuffix p (x :: xs) =
      if (trimSuffix p xs).isEmpty && p x then [] else x :: trimSuffix p xs := rfl

theorem exMapM_ok_length {α β : Type} (f : α → Except Error β) :
    ∀ (l : List α) (res : List β), exMapM f l = .ok res → res.length = l.length := by
  intro l
  induction l with
  | nil => intro res h; cases h; rfl
  | cons x xs ih =>
    intro res h
    simp only [exMapM] at h
    cases hx : f x with
    | error e => rw [hx] at h; cases h
    | ok y =>
      rw [hx] at h
      cases hxs : exMapM f xs with
      | error e => rw [hxs] at h; cases h
      | ok ys => rw [hxs] at h; cases h; simp [ih ys hxs]

theorem trimSuffix_isEmpty_iff {α : Type} (p : α → Bool) (l : List α) :
    (trimSuffix p l).isEmpty = true ↔ ∀ a ∈ l, p a = true := by
  rw [List.isEmpty_iff_length_eq_zero, ← Nat.le_zero, trimSuffix_length_le_iff]
  simp

/-! ### Lemmas about field serialization and decoding -/

theorem omittable_defaultField (f : FieldDescr) (h : f.optional = true) :
    omittable (f, defaultField f) = true := by
  cases hd : f.dflt <;> simp [defaultField, omittable, hd, h]

theorem all_optional_countP {fs : List FieldDescr}
    (h : ∀ f ∈ fs, f.optional = true) :
    fs.countP (fun f => !f.optional) = 0 := by
  rw [List.countP_eq_zero]
  intro f hf
  simp [h f hf]

theorem omittable_optional {f : FieldDescr} {a : FieldVal}
    (h : omittable (f, a) = true) : f.optional = true := by
  cases a <;> simp [omittable] at h <;> tauto

theorem decodeFields_nil_of_omittable :
    ∀ (fs : List FieldDescr) (args : List FieldVal),
      fs.length = args.length →
      validPairs (fs.zip args) = true →
      (∀ fa ∈ fs.zip args, omittable fa = true) →
      decodeFields fs [] = .ok args := by
  intro fs
  induction fs with
  | nil =>
    intro args hlen _ _
    cases args with
    | nil => rfl
    | cons a as => simp at hlen
  | cons f fs ih =>
    intro args hlen hvp hom
    cases args with
    | nil => simp at hlen
    | cons a as =>
      rw [List.zip_cons_cons] at hvp hom
      rw [validPairs, List.all_cons] at hvp
      have hsplit := Bool.and_eq_true_iff.mp hvp
      have hvp1 : validPair f a = true := hsplit.1
      have hvp2 : validPairs (fs.zip as) = true := hsplit.2
      have hom1 : omittable (f, a) = true := hom _ (List.mem_cons_self _ _)
      have hom2 : ∀ fa ∈ fs.zip as, omittable fa = true :=
        fun fa hfa => hom fa (List.mem_cons_of_mem _ hfa)
      have hopt : f.optional = true := omittable_optional hom1
      have hdf : defaultField f = a := by
        cases a with
        | reqVal v => simp [omittable] at hom1
        | optVal v =>
          have hd : f.dflt = some v := by
            simpa [omittable, hopt] using hom1
          simp [defaultField, hd]
        | optAbsent =>
          have hd : f.dflt = none := by
            simpa [validPair, hopt] using hvp1
          simp [defaultField, hd]
      have hrest := ih as (by simpa using hlen) hvp2 hom2
      simp only [decodeFields, hopt, if_true]
      rw [hrest, hdf]

theorem countP_req_zero_of_omittable :
    ∀ (fs : List FieldDescr) (args : List FieldVal),
      fs.length = args.length →
      (∀ fa ∈ fs.zip args, omittable fa = true) →
      fs.countP (fun f => !f.optional) = 0 := by
  intro fs
  induction fs with
  | nil => intro args _ _; rfl
  | cons f fs ih =>
    intro args hlen hom
    cases args with
    | nil => simp at hlen
    | cons a as =>
      rw [List.zip_cons_cons] at hom
      have h1 : f.optional = true :=
        omittable_optional (hom _ (List.mem_cons_self _ _))
      rw [List.countP_cons, ih as (by simpa using hlen)
            (fun fa hfa => hom fa (List.mem_cons_of_mem _ hfa))]
      simp [h1]

theorem marshal_unmarshal_core :
    ∀ (fs : List FieldDescr) (args : List FieldVal),
      fs.length = args.length →
      validPairs (fs.zip args) = true →
      noAbsentKept (fs.zip args) = true →
      ∃ ps, marshalParams (fs.zip args) = .ok ps ∧
        fs.countP (fun f => !f.optional) ≤ ps.length ∧
        ps.length ≤ fs.length ∧
        decodeFields fs ps = .ok args := by
  intro fs
  induction fs with
  | nil =>
    intro args hlen _ _
    cases args with
    | nil => exact ⟨[], rfl, by simp, by simp, rfl⟩
    | cons _ _ => simp at hlen
  | cons f fs ih =>
    intro args hlen hvp hnk
    cases args with
    | nil => simp at hlen
    | cons a as =>
      rw [List.zip_cons_cons] at hvp hnk ⊢
      rw [validPairs, List.all_cons] at hvp
      have hsplit := Bool.and_eq_true_iff.mp hvp
      have hvp1 : validPair f a = true := hsplit.1
      have hvp2 : validPairs (fs.zip as) = true := hsplit.2
      rw [noAbsentKept] at hnk
      have hnks := Bool.and_eq_true_iff.mp hnk
      have hnk2 : noAbsentKept (fs.zip as) = true := hnks.2
      have hlen2 : fs.length = as.length := by simpa using hlen
      by_cases hc : (trimSuffix omittable (fs.zip as)).isEmpty && omittable (f, a)
      · -- the whole list is trimmed away
        have hce := Bool.and_eq_true_iff.mp hc
        have hall : ∀ fa ∈ fs.zip as, omittable fa = true :=
          (trimSuffix_isEmpty_iff omittable (fs.zip as)).mp hce.1
        have hallc : ∀ fa ∈ (f, a) :: fs.zip as, omittable fa = true := by
          intro fa hfa
          rcases List.mem_cons.mp hfa with rfl | hmem
          · exact hce.2
          · exact hall fa hmem
        refine ⟨[], ?_, ?_, by simp, ?_⟩
        · simp [marshalParams, trimSuffix, hc, exMapM]
        · have := countP_req_zero_of_omittable (f :: fs) (a :: as) hlen
            (by rw [List.zip_cons_cons]; exact hallc)
          simp [this]
        · exact decodeFields_nil_of_omittable (f :: fs) (a :: as) hlen
            (by rw [List.zip_cons_cons, validPairs, List.all_cons]
                exact Bool.and_eq_true_iff.mpr ⟨hvp1, hvp2⟩) hallc
      · -- the head is kept
        obtain ⟨ps, hps, hcount, hplen, hdec⟩ := ih as hlen2 hvp2 hnk2
        have hnabs : a ≠ .optAbsent := by
          intro habs
          subst habs
          have hclause := hnks.1
          simp only at hclause
          have hcc := Bool.and_eq_true_iff.mp hclause
          have hemp : (trimSuffix omittable (fs.zip as)).isEmpty = true :=
            (trimSuffix_isEmpty_iff omittable (fs.zip as)).mpr
              (by intro fa hfa; exact (List.all_eq_true.mp hcc.2) fa hfa)
          exact absurd (Bool.and_eq_true_iff.mpr ⟨hemp, hcc.1⟩) hc
        obtain ⟨v, hv, hstep⟩ :
            ∃ v, emitField (f, a) = .ok v ∧
              decodeFields (f :: fs) (v :: ps) = .ok (a :: as) := by
          cases a with
          | reqVal v =>
            have hro : f.optional = false ∧ normalize f.shape v = some v := by
              simpa [validPair] using hvp1
            exact ⟨v, rfl, by simp [decodeFields, hro.1, hro.2, hdec]⟩
          | optVal v =>
            have hro : f.optional = true ∧ normalize f.shape v = some v := by
              simpa [validPair] using hvp1
            exact ⟨v, rfl, by simp [decodeFields, hro.1, hro.2, hdec]⟩
          | optAbsent => exact absurd rfl hnabs
        refine ⟨v :: ps, ?_, ?_, by simpa using Nat.succ_le_succ hplen, ?_⟩
        · show exMapM emitField (trimSuffix omittable ((f, a) :: fs.zip as)) = .ok (v :: ps)
          rw [trimSuffix_cons, if_neg (by simpa using hc)]
          simp only [exMapM, hv]
          have hps2 : exMapM emitField (trimSuffix omittable (fs.zip as)) = .ok ps := hps
          simp only [hps2]
        · rw [List.countP_cons]
          by_cases ho : f.optional
          · simp only [ho]
            simpa using Nat.le_succ_of_le hcount
          · simp only [ho]
            simp only [Bool.not_false, if_pos]
            simpa using Nat.succ_le_succ hcount
        · exact hstep

/-! ### Lemmas about decoding wire requests and re-marshaling them -/

theorem mkArgs_length :
    ∀ (fs : List FieldDescr) (ps : List JValue), ps.length ≤ fs.length →
      (mkArgs fs ps).length = fs.length := by
  intro fs
  induction fs with
  | nil =>
    intro ps hle
    cases ps with
    | nil => rfl
    | cons _ _ => simp at hle
  | cons f fs ih =>
    intro ps hle
    cases ps with
    | nil => simp [mkArgs]
    | cons p ps => simp [mkArgs, ih ps (by simpa using hle)]

theorem all_optional_requiredFirst :
    ∀ fs : List FieldDescr, (∀ f ∈ fs, f.optional = true) →
      requiredFirst fs = true := by
  intro fs
  induction fs with
  | nil => intro _; rfl
  | cons f fs ih =>
    intro h
    have hf : f.optional = true := h f (List.mem_cons_self _ _)
    simp [requiredFirst, hf, List.all_eq_true]
    intro g hg
    exact h g (List.mem_cons_of_mem _ hg)

theorem requiredFirst_cons_opt {f : FieldDescr} {fs : List FieldDescr}
    (h : requiredFirst (f :: fs) = true) (hf : f.optional = true) :
    ∀ g ∈ fs, g.optional = true := by
  rw [requiredFirst, if_pos hf] at h
  exact fun g hg => List.all_eq_true.mp h g hg

theorem requiredFirst_cons_req {f : FieldDescr} {fs : List FieldDescr}
    (h : requiredFirst (f :: fs) = true) (hf : f.optional = false) :
    requiredFirst fs = true := by
  rw [requiredFirst, if_neg (by simp [hf])] at h
  exact h

theorem requiredFirst_tail {f : FieldDescr} {fs : List FieldDescr}
    (h : requiredFirst (f :: fs) = true) : requiredFirst fs = true := by
  by_cases hf : f.optional
  · exact all_optional_requiredFirst fs (requiredFirst_cons_opt h hf)
  · exact requiredFirst_cons_req h (by simpa using hf)

theorem zip_defaults_omittable :
    ∀ fs : List FieldDescr, (∀ f ∈ fs, f.optional = true) →
      ∀ fa ∈ fs.zip (fs.map defaultField), omittable fa = true := by
  intro fs
  induction fs with
  | nil => intro _ fa hfa; simp at hfa
  | cons f fs ih =>
    intro h fa hfa
    rw [List.map_cons, List.zip_cons_cons] at hfa
    rcases List.mem_cons.mp hfa with rfl | hmem
    · exact omittable_defaultField f (h f (List.mem_cons_self _ _))
    · exact ih (fun g hg => h g (List.mem_cons_of_mem _ hg)) fa hmem

theorem normedParams_nil (fs : List FieldDescr) : normedParams fs [] = true := by
  cases fs <;> rfl

theorem mkArgs_nil (fs : List FieldDescr) : mkArgs fs [] = fs.map defaultField := by
  cases fs <;> rfl

theorem countP_cons_req {f : FieldDescr} (fs : List FieldDescr)
    (h : f.optional = false) :
    (f :: fs).countP (fun g => !g.optional) = fs.countP (fun g => !g.optional) + 1 := by
  rw [List.countP_cons]
  simp [h]

theorem countP_cons_opt {f : FieldDescr} (fs : List FieldDescr)
    (h : f.optional = true) :
    (f :: fs).countP (fun g => !g.optional) = fs.countP (fun g => !g.optional) := by
  rw [List.countP_cons]
  simp [h]

theorem decode_mkArgs :
    ∀ (fs : List FieldDescr) (ps : List JValue),
      requiredFirst fs = true →
      normedParams fs ps = true →
      fs.countP (fun f => !f.optional) ≤ ps.length →
      ps.length ≤ fs.length →
      decodeFields fs ps = .ok (mkArgs fs ps) := by
  intro fs
  induction fs with
  | nil =>
    intro ps _ _ _ hle
    cases ps with
    | nil => rfl
    | cons _ _ => simp at hle
  | cons f fs ih =>
    intro ps hrf hnp hreq hle
    cases ps with
    | nil =>
      have hopt : f.optional = true := by
        by_contra hbad
        have hb : f.optional = false := by simpa using hbad
        have hcc := countP_cons_req fs hb
        simp only [List.length_nil, Nat.le_zero] at hreq
        omega
      have hall : ∀ g ∈ fs, g.optional = true := requiredFirst_cons_opt hrf hopt
      have hrest := ih [] (all_optional_requiredFirst fs hall) (normedParams_nil fs)
        (by simp [all_optional_countP hall]) (by simp)
      simp only [decodeFields, hopt, if_true, hrest, mkArgs_nil, List.map_cons]
    | cons p ps =>
      rw [normedParams] at hnp
      have hns := Bool.and_eq_true_iff.mp hnp
      have hnorm : normalize f.shape p = some p := of_decide_eq_true hns.1
      have hcount2 : fs.countP (fun g => !g.optional) ≤ ps.length := by
        by_cases hopt : f.optional
        · have hall : ∀ g ∈ fs, g.optional = true := requiredFirst_cons_opt hrf hopt
          simp [all_optional_countP hall]
        · have hb : f.optional = false := by simpa using hopt
          have hcc := countP_cons_req fs hb
          simp only [List.length_cons] at hreq
          omega
      have hrest := ih ps (requiredFirst_tail hrf) hns.2 hcount2
        (by simpa using hle)
      simp only [decodeFields, hnorm, hrest, mkArgs]

theorem remarshal_core :
    ∀ (fs : List FieldDescr) (ps : List JValue),
      requiredFirst fs = true →
      normedParams fs ps = true →
      minimalTail fs ps = true →
      fs.countP (fun f => !f.optional) ≤ ps.length →
      ps.length ≤ fs.length →
      marshalParams (fs.zip (mkArgs fs ps)) = .ok ps := by
  intro fs
  induction fs with
  | nil =>
    intro ps _ _ _ _ hle
    cases ps with
    | nil => rfl
    | cons _ _ => simp at hle
  | cons f fs ih =>
    intro ps hrf hnp hmt hreq hle
    cases ps with
    | nil =>
      have hopt : f.optional = true := by
        by_contra hbad
        have hb : f.optional = false := by simpa using hbad
        have hcc := countP_cons_req fs hb
        simp only [List.length_nil, Nat.le_zero] at hreq
        omega
      have hall : ∀ g ∈ f :: fs, g.optional = true := by
        intro g hg
        rcases List.mem_cons.mp hg with rfl | hmem
        · exact hopt
        · exact requiredFirst_cons_opt hrf hopt g hmem
      have homit : ∀ fa ∈ (f :: fs).zip (mkArgs (f :: fs) []), omittable fa = true := by
        rw [mkArgs_nil]
        exact zip_defaults_omittable (f :: fs) hall
      rw [marshalParams, trimSuffix_nil_of_all omittable _ homit]
      rfl
    | cons p ps =>
      have hzip : (f :: fs).zip (mkArgs (f :: fs) (p :: ps))
          = (f, if f.optional then .optVal p else .reqVal p) :: fs.zip (mkArgs fs ps) := by
        simp [mkArgs, List.zip_cons_cons]
      rw [normedParams] at hnp
      have hns := Bool.and_eq_true_iff.mp hnp
      cases ps with
      | nil =>
        -- the supplied parameter is the last one; minimality keeps it
        have hkeep : omittable (f, if f.optional then FieldVal.optVal p else FieldVal.reqVal p) = false := by
          have hm := hmt
          rw [minimalTail] at hm
          simpa using hm
        have hall : ∀ g ∈ fs, g.optional = true := by
          intro g hg
          by_cases hopt : f.optional
          · exact requiredFirst_cons_opt hrf hopt g hg
          · have hb : f.optional = false := by simpa using hopt
            have hcc := countP_cons_req fs hb
            simp only [List.length_cons, List.length_nil] at hreq
            have hz : fs.countP (fun g => !g.optional) = 0 := by omega
            have hmem := List.countP_eq_zero.mp hz g hg
            simpa using hmem
        have homit : ∀ fa ∈ fs.zip (mkArgs fs []), omittable fa = true := by
          rw [mkArgs_nil]
          exact zip_defaults_omittable fs hall
        rw [hzip, marshalParams, trimSuffix_cons,
            trimSuffix_nil_of_all omittable _ homit]
        rw [if_neg (by simp [hkeep])]
        cases hopt : f.optional <;> simp [hopt, exMapM, emitField]
      | cons q qs =>
        have hmt2 : minimalTail fs (q :: qs) = true := by
          have heq : minimalTail (f :: fs) (p :: q :: qs) = minimalTail fs (q :: qs) := rfl
          rw [heq] at hmt
          exact hmt
        have hrest := ih (q :: qs) (requiredFirst_tail hrf) hns.2 hmt2
          (by
            by_cases hopt : f.optional
            · have hall : ∀ g ∈ fs, g.optional = true := requiredFirst_cons_opt hrf hopt
              simp [all_optional_countP hall]
            · have hb : f.optional = false := by simpa using hopt
              have hcc := countP_cons_req fs hb
              simp only [List.length_cons] at hreq ⊢
              omega)
          (by simpa using hle)
        have htne : trimSuffix omittable (fs.zip (mkArgs fs (q :: qs))) ≠ [] := by
          intro hnil
          rw [marshalParams, hnil] at hrest
          simp [exMapM] at hrest
        rw [hzip, marshalParams, trimSuffix_cons]
        rw [if_neg (by
          intro hcond
          exact htne (List.isEmpty_iff.mp (Bool.and_eq_true_iff.mp hcond).1))]
        have hrest2 : exMapM emitField (trimSuffix omittable (fs.zip (mkArgs fs (q :: qs)))) = .ok (q :: qs) := hrest
        cases hopt : f.optional <;>
          simp [hopt, exMapM, emitField, hrest2]

/-! ### Lemmas about when marshaling succeeds and which errors can arise -/

theorem noAbsentKept_of_all_omittable :
    ∀ l : List (FieldDescr × FieldVal),
      (∀ fa ∈ l, omittable fa = true) → noAbsentKept l = true := by
  intro l
  induction l with
  | nil => intro _; rfl
  | cons x rest ih =>
    intro h
    obtain ⟨f, a⟩ := x
    rw [noAbsentKept]
    refine Bool.and_eq_true_iff.mpr ⟨?_, ih (fun fa hfa => h fa (List.mem_cons_of_mem _ hfa))⟩
    cases a with
    | reqVal v => rfl
    | optVal v => rfl
    | optAbsent =>
      simp only
      exact Bool.and_eq_true_iff.mpr
        ⟨h _ (List.mem_cons_self _ _),
         List.all_eq_true.mpr (fun fa hfa => h fa (List.mem_cons_of_mem _ hfa))⟩

theorem marshalParams_cases :
    ∀ l : List (FieldDescr × FieldVal),
      (noAbsentKept l = true → ∃ ps, marshalParams l = .ok ps) ∧
      (noAbsentKept l = false → ∃ e, marshalParams l = .error e ∧ e.Code = ErrNumParams) := by
  intro l
  induction l with
  | nil =>
    refine ⟨fun _ => ⟨[], rfl⟩, fun h => ?_⟩
    simp [noAbsentKept] at h
  | cons x rest ih =>
    obtain ⟨f, a⟩ := x
    by_cases hc : (trimSuffix omittable rest).isEmpty && omittable (f, a)
    · -- the whole list is trimmed away: marshaling succeeds with no params
      have hall : ∀ fa ∈ rest, omittable fa = true :=
        (trimSuffix_isEmpty_iff omittable rest).mp (Bool.and_eq_true_iff.mp hc).1
      have hnk : noAbsentKept ((f, a) :: rest) = true := by
        rw [noAbsentKept]
        refine Bool.and_eq_true_iff.mpr ⟨?_, noAbsentKept_of_all_omittable rest hall⟩
        cases a with
        | reqVal v => rfl
        | optVal v => rfl
        | optAbsent =>
          simp only
          exact Bool.and_eq_true_iff.mpr
            ⟨(Bool.and_eq_true_iff.mp hc).2, List.all_eq_true.mpr hall⟩
      refine ⟨fun _ => ⟨[], ?_⟩, fun hfalse => absurd hnk (by simp [hfalse])⟩
      rw [marshalParams, trimSuffix_cons, if_pos hc]
      rfl
    · -- the head survives the trim
      have hhead : marshalParams ((f, a) :: rest)
          = exMapM emitField ((f, a) :: trimSuffix omittable rest) := by
        rw [marshalParams, trimSuffix_cons, if_neg (by simpa using hc)]
      cases a with
      | optAbsent =>
        -- a surviving absence is the param-position error
        refine ⟨fun htrue => ?_, fun _ => ?_⟩
        · exfalso
          rw [noAbsentKept] at htrue
          have hcl := (Bool.and_eq_true_iff.mp htrue).1
          simp only at hcl
          have hcc := Bool.and_eq_true_iff.mp hcl
          have hemp : (trimSuffix omittable rest).isEmpty = true :=
            (trimSuffix_isEmpty_iff omittable rest).mpr
              (fun fa hfa => List.all_eq_true.mp hcc.2 fa hfa)
          exact absurd (Bool.and_eq_true_iff.mpr ⟨hemp, hcc.1⟩) hc
        · refine ⟨⟨ErrNumParams,
            "parameter " ++ f.name ++ " is absent but a later parameter is set"⟩, ?_, rfl⟩
          rw [hhead]
          rfl
      | reqVal v =>
        have hnkeq : noAbsentKept ((f, .reqVal v) :: rest) = noAbsentKept rest := by
          rw [noAbsentKept]
          simp
        constructor
        · intro htrue
          obtain ⟨ps, hps⟩ := ih.1 (by rw [hnkeq] at htrue; exact htrue)
          refine ⟨v :: ps, ?_⟩
          rw [hhead]
          simp only [exMapM, emitField]
          have : exMapM emitField (trimSuffix omittable rest) = .ok ps := hps
          simp only [this]
        · intro hfalse
          obtain ⟨e, he, hcode⟩ := ih.2 (by rw [hnkeq] at hfalse; exact hfalse)
          refine ⟨e, ?_, hcode⟩
          rw [hhead]
          simp only [exMapM, emitField]
          have : exMapM emitField (trimSuffix omittable rest) = .error e := he
          simp only [this]
      | optVal v =>
        have hnkeq : noAbsentKept ((f, .optVal v) :: rest) = noAbsentKept rest := by
          rw [noAbsentKept]
          simp
        constructor
        · intro htrue
          obtain ⟨ps, hps⟩ := ih.1 (by rw [hnkeq] at htrue; exact htrue)
          refine ⟨v :: ps, ?_⟩
          rw [hhead]
          simp only [exMapM, emitField]
          have : exMapM emitField (trimSuffix omittable rest) = .ok ps := hps
          simp only [this]
        · intro hfalse
          obtain ⟨e, he, hcode⟩ := ih.2 (by rw [hnkeq] at hfalse; exact hfalse)
          refine ⟨e, ?_, hcode⟩
          rw [hhead]
          simp only [exMapM, emitField]
          have : exMapM emitField (trimSuffix omittable rest) = .error e := he
          simp only [this]

/-! ### Which fields an unmarshaled command receives beyond the supplied count -/

theorem decodeFields_getD :
    ∀ (fs : List FieldDescr) (ps : List JValue) (res : List FieldVal),
      decodeFields fs ps = .ok res →
      ∀ i, ps.length ≤ i →
        res.getD i .optAbsent = defaultField (fs.getD i dummyField) := by
  intro fs
  induction fs with
  | nil =>
    intro ps res h i _
    cases ps with
    | nil =>
      cases h
      simp [defaultField, dummyField]
    | cons _ _ => simp [decodeFields] at h
  | cons f fs ih =>
    intro ps res h i hi
    cases ps with
    | nil =>
      by_cases hopt : f.optional
      · simp only [decodeFields, hopt, if_true] at h
        cases hrec : decodeFields fs [] with
        | error e => rw [hrec] at h; cases h
        | ok rest =>
          rw [hrec] at h
          cases h
          cases i with
          | zero => simp
          | succ j => simpa using ih [] rest hrec j (by simp)
      · simp only [decodeFields, hopt, if_false] at h
        cases h
    | cons p ps =>
      obtain ⟨j, rfl⟩ : ∃ j, i = j + 1 := by
        refine ⟨i - 1, ?_⟩
        simp only [List.length_cons] at hi
        omega
      simp only [decodeFields] at h
      cases hn : normalize f.shape p with
      | none => rw [hn] at h; cases h
      | some v =>
        rw [hn] at h
        cases hrec : decodeFields fs ps with
        | error e => rw [hrec] at h; cases h
        | ok rest =>
          rw [hrec] at h
          cases h
          simp only [List.getD_cons_succ]
          exact ih ps rest hrec j (by simpa using hi)

/-! ### Runtime errors within the count bounds are always type errors -/

theorem parseNorm_error_code {sh : JShape} {s : String} {e : Error}
    (h : parseNorm sh s = .error e) : e = invalidTypeErr := by
  unfold parseNorm at h
  cases hp : parseJSON s with
  | none =>
    simp only [hp, Except.error.injEq] at h
    exact h.symm
  | some v =>
    cases hn : normalize sh v with
    | none =>
      simp only [hp, hn, Except.error.injEq] at h
      exact h.symm
    | some u =>
      simp only [hp, hn] at h
      simp at h

theorem convertArg_error_code {f : FieldDescr} {a : Arg} {e : Error}
    (h : convertArg f a = .error e) : e = invalidTypeErr := by
  cases a with
  | val v =>
    simp only [convertArg] at h
    cases hn : normalize f.shape v with
    | none => rw [hn] at h; cases h; rfl
    | some u => rw [hn] at h; cases h
  | text s =>
    simp only [convertArg] at h
    cases hsh : f.shape with
    | jBool => rw [hsh] at h; cases h; rfl
    | jInt => rw [hsh] at h; cases h; rfl
    | jFloat => rw [hsh] at h; cases h; rfl
    | jString => rw [hsh] at h; cases h
    | jList es => rw [hsh] at h; exact parseNorm_error_code h
    | jMapFloat => rw [hsh] at h; exact parseNorm_error_code h
    | jObjShape fds => rw [hsh] at h; exact parseNorm_error_code h

theorem convFields_error_code :
    ∀ (fs : List FieldDescr) (args : List Arg) (e : Error),
      requiredFirst fs = true →
      fs.countP (fun f => !f.optional) ≤ args.length →
      args.length ≤ fs.length →
      convFields fs args = .error e → e = invalidTypeErr := by
  intro fs
  induction fs with
  | nil =>
    intro args e _ _ hle h
    cases args with
    | nil => cases h
    | cons _ _ => simp at hle
  | cons f fs ih =>
    intro args e hrf hreq hle h
    cases args with
    | nil =>
      have hopt : f.optional = true := by
        by_contra hbad
        have hb : f.optional = false := by simpa using hbad
        have hcc := countP_cons_req fs hb
        simp only [List.length_nil, Nat.le_zero] at hreq
        omega
      have hall : ∀ g ∈ fs, g.optional = true := requiredFirst_cons_opt hrf hopt
      simp only [convFields, hopt, if_true] at h
      cases hrec : convFields fs [] with
      | error e2 =>
        rw [hrec] at h
        cases h
        exact ih [] e (all_optional_requiredFirst fs hall)
          (by simp [all_optional_countP hall]) (by simp) hrec
      | ok rest => rw [hrec] at h; cases h
    | cons a args =>
      simp only [convFields] at h
      cases hca : convertArg f a with
      | error e2 =>
        rw [hca] at h
        cases h
        exact convertArg_error_code hca
      | ok v =>
        rw [hca] at h
        cases hrec : convFields fs args with
        | error e2 =>
          rw [hrec] at h
          cases h
          refine ih args e (requiredFirst_tail hrf) ?_ (by simpa using hle) hrec
          by_cases hopt : f.optional
          · have hall : ∀ g ∈ fs, g.optional = true := requiredFirst_cons_opt hrf hopt
            simp [all_optional_countP hall]
          · have hb : f.optional = false := by simpa using hopt
            have hcc := countP_cons_req fs hb
            simp only [List.length_cons] at hreq ⊢
            omega
        | ok rest => rw [hrec] at h; cases h

theorem decodeFields_error_code :
    ∀ (fs : List FieldDescr) (ps : List JValue) (e : Error),
      requiredFirst fs = true →
      fs.countP (fun f => !f.optional) ≤ ps.length →
      ps.length ≤ fs.length →
      decodeFields fs ps = .error e → e = invalidTypeErr := by
  intro fs
  induction fs with
  | nil =>
    intro ps e _ _ hle h
    cases ps with
    | nil => cases h
    | cons _ _ => simp at hle
  | cons f fs ih =>
    intro ps e hrf hreq hle h
    cases ps with
    | nil =>
      have hopt : f.optional = true := by
        by_contra hbad
        have hb : f.optional = false := by simpa using hbad
        have hcc := countP_cons_req fs hb
        simp only [List.length_nil, Nat.le_zero] at hreq
        omega
      have hall : ∀ g ∈ fs, g.optional = true := requiredFirst_cons_opt hrf hopt
      simp only [decodeFields, hopt, if_true] at h
      cases hrec : decodeFields fs [] with
      | error e2 =>
        rw [hrec] at h
        cases h
        exact ih [] e (all_optional_requiredFirst fs hall)
          (by simp [all_optional_countP hall]) (by simp) hrec
      | ok rest => rw [hrec] at h; cases h
    | cons p ps =>
      simp only [decodeFields] at h
      cases hn : normalize f.shape p with
      | none => rw [hn] at h; cases h; rfl
      | some v =>
        rw [hn] at h
        cases hrec : decodeFields fs ps with
        | error e2 =>
          rw [hrec] at h
          cases h
          refine ih ps e (requiredFirst_tail hrf) ?_ (by simpa using hle) hrec
          by_cases hopt : f.optional
          · have hall : ∀ g ∈ fs, g.optional = true := requiredFirst_cons_opt hrf hopt
            simp [all_optional_countP hall]
          · have hb : f.optional = false := by simpa using hopt
            have hcc := countP_cons_req fs hb
            simp only [List.length_cons] at hreq ⊢
            omega
        | ok rest => rw [hrec] at h; cases h

/-! ### Miscellaneous counting facts -/

theorem countP_opt_add :
    ∀ fs : List FieldDescr,
      fs.countP (fun f => !f.optional) + fs.countP (fun f => f.optional) = fs.length := by
  intro fs
  induction fs with
  | nil => rfl
  | cons f fs ih =>
    rw [List.countP_cons, List.countP_cons]
    by_cases h : f.optional <;> simp [h] <;> omega

theorem numReq_add_numOpt (d : CmdDescr) : numReq d + numOpt d = d.fields.length :=
  countP_opt_add d.fields

/-! ### The claims -/

/-- C2: MarshalCmd omits parameters by the trailing-omission rule: a field
at position i is omitted from the emitted parameter list exactly when every
field from position i to the end is an absent optional field or an optional
field whose value deep-equals its registered default; the emitted list is
the serialization of the fields before the first position (from the end)
failing that test.  In particular a getbalance command with no account and
the default minimum confirmations of 1 marshals its params to the empty
list. -/
theorem c2_trailing_omission :
    (∀ (version : String) (id : Int) (cmd : CmdVal) (d : CmdDescr) (req : Request),
      findDescr cmd.method = some d →
      cmd.args.length = d.fields.length →
      MarshalCmd version id cmd = .ok req →
      (∀ i : Nat, (req.params.length ≤ i ↔
          ∀ fa ∈ (d.fields.zip cmd.args).drop i, omittable fa = true))
        ∧ trimSuffix omittable (d.fields.zip cmd.args)
            = (d.fields.zip cmd.args).take req.params.length
        ∧ exMapM emitField ((d.fields.zip cmd.args).take req.params.length)
            = .ok req.params)
    ∧ MarshalCmd "1.0" 1 ⟨"getbalance", [.optAbsent, .optVal (.num 1)]⟩
        = .ok ⟨"1.0", "getbalance", [], 1⟩ := by
  constructor
  · intro version id cmd d req hfind hlen hok
    simp only [MarshalCmd, hfind, hlen, if_true] at hok
    cases hmp : marshalParams (d.fields.zip cmd.args) with
    | error e => rw [hmp] at hok; cases hok
    | ok ps =>
      rw [hmp] at hok
      cases hok
      have hlen3 : ps.length = (trimSuffix omittable (d.fields.zip cmd.args)).length :=
        exMapM_ok_length emitField _ ps hmp
      refine ⟨?_, ?_, ?_⟩
      · intro i
        show ps.length ≤ i ↔ _
        rw [hlen3]
        exact trimSuffix_length_le_iff omittable (d.fields.zip cmd.args) i
      · show trimSuffix omittable (d.fields.zip cmd.args)
            = (d.fields.zip cmd.args).take ps.length
        rw [hlen3]
        exact trimSuffix_take omittable (d.fields.zip cmd.args)
      · show exMapM emitField ((d.fields.zip cmd.args).take ps.length) = .ok ps
        rw [hlen3, ← trimSuffix_take omittable (d.fields.zip cmd.args)]
        exact hmp
  · decide

/-- C2 witness: marshaling a verifychain command whose check level 2
differs from its default while the check depth holds its default 288 emits
exactly one parameter, and from that position on every field passes the
omission test. -/
theorem c2_trailing_omission_witness :
    MarshalCmd "1.0" 1 ⟨"verifychain", [.optVal (.num 2), .optVal (.num 288)]⟩
        = .ok ⟨"1.0", "verifychain", [.num 2], 1⟩
    ∧ (([JValue.num 2] : List JValue).length ≤ 1 ↔
        ∀ fa ∈ (verifyChainDescr.fields.zip
          [FieldVal.optVal (.num 2), FieldVal.optVal (.num 288)]).drop 1,
          omittable fa = true) := by
  refine ⟨by decide, ?_⟩
  have h := (c2_trailing_omission.1 "1.0" 1
    ⟨"verifychain", [.optVal (.num 2), .optVal (.num 288)]⟩ verifyChainDescr
    ⟨"1.0", "verifychain", [.num 2], 1⟩ (by decide) (by decide) (by decide)).1 1
  exact h

/-- C3 counterexample: a getbalance command value whose optional account
field is absent (it has no value and no default) while the later minconf
field is present (holding its default 1) marshals successfully to the
empty parameter list instead of returning a param-position error, because
the entire tail passes the omission test. -/
theorem c3_absent_param_counterexample :
    MarshalCmd "1.0" 1 ⟨"getbalance", [.optAbsent, .optVal (.num 1)]⟩
      = .ok ⟨"1.0", "getbalance", [], 1⟩ := by decide

/-- C3 amended: MarshalCmd returns a param-position error if and only if
some optional field is absent while some field at or after it fails the
trailing-omission test (so the absence would have to be represented inside
the emitted positional list); when every absent field heads an
all-omittable tail, the absences are omitted and marshaling succeeds,
never emitting a wire null. -/
theorem c3_absent_param :
    ∀ (version : String) (id : Int) (cmd : CmdVal) (d : CmdDescr),
      findDescr cmd.method = some d →
      cmd.args.length = d.fields.length →
      ((noAbsentKept (d.fields.zip cmd.args) = false →
          ∃ e, MarshalCmd version id cmd = .error e ∧ e.Code = ErrNumParams)
        ∧ (noAbsentKept (d.fields.zip cmd.args) = true →
          ∃ req, MarshalCmd version id cmd = .ok req)) := by
  intro version id cmd d hfind hlen
  constructor
  · intro hfalse
    obtain ⟨e, he, hcode⟩ := (marshalParams_cases (d.fields.zip cmd.args)).2 hfalse
    exact ⟨e, by simp only [MarshalCmd, hfind, hlen, if_true, he], hcode⟩
  · intro htrue
    obtain ⟨ps, hps⟩ := (marshalParams_cases (d.fields.zip cmd.args)).1 htrue
    exact ⟨⟨version, cmd.method, ps, id⟩,
      by simp only [MarshalCmd, hfind, hlen, if_true, hps]⟩

/-- C3 witness: a getbalance command with an absent account but a
non-default minconf of 6 has a genuinely non-trailing absence, and
MarshalCmd returns the param-position error. -/
theorem c3_absent_param_witness :
    ∃ e, MarshalCmd "1.0" 1 ⟨"getbalance", [.optAbsent, .optVal (.num 6)]⟩
        = .error e ∧ e.Code = ErrNumParams :=
  (c3_absent_param "1.0" 1 ⟨"getbalance", [.optAbsent, .optVal (.num 6)]⟩
    getBalanceDescr (by decide) (by decide)).1 (by decide)

/-- C4: for every registered method and request, whenever UnmarshalCmd
succeeds, every field at or beyond the supplied parameter count is set to
the registered default of the field when one exists and to the absent state
otherwise, so the returned command value is fully defaulted. -/
theorem c4_defaulting :
    ∀ (req : Request) (d : CmdDescr) (cmd : CmdVal) (i : Nat),
      findDescr req.method = some d →
      UnmarshalCmd req = .ok cmd →
      req.params.length ≤ i →
      cmd.args.getD i .optAbsent = defaultField (d.fields.getD i dummyField) := by
  intro req d cmd i hfind hok hi
  simp only [UnmarshalCmd, hfind] at hok
  split at hok
  · cases hok
  · cases hdec : decodeFields d.fields req.params with
    | error e => rw [hdec] at hok; cases hok
    | ok args =>
      rw [hdec] at hok
      cases hok
      exact decodeFields_getD d.fields req.params args hdec i hi

/-- C4 witness: unmarshaling getbalance with no parameters leaves the
account absent and sets minconf to its default 1, and unmarshaling
importaddress with only the address sets rescan to its default true. -/
theorem c4_defaulting_witness :
    (∃ cmd, UnmarshalCmd ⟨"1.0", "getbalance", [], 1⟩ = .ok cmd
      ∧ cmd.args.getD 0 .optAbsent = .optAbsent
      ∧ cmd.args.getD 1 .optAbsent = .optVal (.num 1))
    ∧ (∃ cmd, UnmarshalCmd ⟨"1.0", "importaddress", [.str "1Address"], 1⟩ = .ok cmd
      ∧ cmd.args.getD 1 .optAbsent = .optVal (.bool true)) := by
  constructor
  · refine ⟨⟨"getbalance", [.optAbsent, .optVal (.num 1)]⟩, by decide, ?_, ?_⟩
    · exact (c4_defaulting ⟨"1.0", "getbalance", [], 1⟩ getBalanceDescr
        ⟨"getbalance", [.optAbsent, .optVal (.num 1)]⟩ 0
        (by decide) (by decide) (by decide)).trans (by decide)
    · exact (c4_defaulting ⟨"1.0", "getbalance", [], 1⟩ getBalanceDescr
        ⟨"getbalance", [.optAbsent, .optVal (.num 1)]⟩ 1
        (by decide) (by decide) (by decide)).trans (by decide)
  · refine ⟨⟨"importaddress", [.reqVal (.str "1Address"), .optVal (.bool true)]⟩,
      by decide, ?_⟩
    exact (c4_defaulting ⟨"1.0", "importaddress", [.str "1Address"], 1⟩
      importAddressDescr
      ⟨"importaddress", [.reqVal (.str "1Address"), .optVal (.bool true)]⟩ 1
      (by decide) (by decide) (by decide)).trans (by decide)

/-- C6: for every method name not present in the registry, NewCmd and
UnmarshalCmd return the unregistered-method error and no command value. -/
theorem c6_unregistered :
    ∀ (m : String) (args : List Arg) (req : Request),
      findDescr m = none → req.method = m →
      NewCmd m args = .error (unregisteredErr m)
        ∧ UnmarshalCmd req = .error (unregisteredErr m) := by
  intro m args req hfind hreq
  constructor
  · simp only [NewCmd, hfind]
  · simp only [UnmarshalCmd, hreq, hfind]

/-- C6 witness: the method bogusmethod is not registered, and both paths
return exactly the unregistered-method error. -/
theorem c6_unregistered_witness :
    NewCmd "bogusmethod" [] = .error (unregisteredErr "bogusmethod")
      ∧ UnmarshalCmd ⟨"1.0", "bogusmethod", [], 1⟩
          = .error (unregisteredErr "bogusmethod") :=
  c6_unregistered "bogusmethod" [] ⟨"1.0", "bogusmethod", [], 1⟩ (by decide) rfl

/-- C1 counterexample: the claim fails in its second half.  The wire
request getbalance with params [acct, 1] is within bounds and well typed,
unmarshals to the fully-defaulted command (account acct, minconf 1), but
re-marshaling that command drops the trailing minconf because it equals
its registered default, producing params [acct] instead of the original
[acct, 1]. -/
theorem c1_roundtrip_counterexample :
    UnmarshalCmd ⟨"1.0", "getbalance", [.str "acct", .num 1], 1⟩
        = .ok ⟨"getbalance", [.optVal (.str "acct"), .optVal (.num 1)]⟩
    ∧ MarshalCmd "1.0" 1 ⟨"getbalance", [.optVal (.str "acct"), .optVal (.num 1)]⟩
        = .ok ⟨"1.0", "getbalance", [.str "acct"], 1⟩
    ∧ ([JValue.str "acct"] : List JValue) ≠ [JValue.str "acct", JValue.num 1] := by
  refine ⟨by decide, by decide, by decide⟩

/-- C1 amended: unmarshal after marshal is the identity on every
well-typed, fully-defaulted command value whose absent fields are all
genuinely trailing; and marshal after unmarshal reproduces the parameter list of a wire
request provided the request is well typed, within
bounds, and already in the minimal form marshal produces, that is, its
last parameter does not land on an optional field holding exactly its
registered default (otherwise re-marshaling drops that trailing run). -/
theorem c1_roundtrip :
    (∀ (version : String) (id : Int) (cmd : CmdVal) (d : CmdDescr),
      findDescr cmd.method = some d →
      cmd.args.length = d.fields.length →
      validPairs (d.fields.zip cmd.args) = true →
      noAbsentKept (d.fields.zip cmd.args) = true →
      ∃ req, MarshalCmd version id cmd = .ok req ∧ UnmarshalCmd req = .ok cmd)
    ∧ (∀ (req : Request) (d : CmdDescr),
      findDescr req.method = some d →
      requiredFirst d.fields = true →
      normedParams d.fields req.params = true →
      minimalTail d.fields req.params = true →
      numReq d ≤ req.params.length →
      req.params.length ≤ numReq d + numOpt d →
      ∃ cmd, UnmarshalCmd req = .ok cmd
        ∧ MarshalCmd req.jsonrpc req.id cmd = .ok req) := by
  constructor
  · intro version id cmd d hfind hlen hvp hnk
    obtain ⟨ps, hps, hcount, hplen, hdec⟩ :=
      marshal_unmarshal_core d.fields cmd.args hlen.symm hvp hnk
    refine ⟨⟨version, cmd.method, ps, id⟩, ?_, ?_⟩
    · simp only [MarshalCmd, hfind, hlen, if_true, hps]
    · have h1 : ¬ (ps.length < numReq d) := by
        rw [numReq]
        omega
      have h2 : ¬ (d.fields.length < ps.length) := by omega
      simp only [UnmarshalCmd, hfind]
      rw [if_neg (by simp [h1, h2])]
      rw [hdec]
  · intro req d hfind hrf hnp hmt hlo hhi
    rw [numReq] at hlo
    have hlen2 : req.params.length ≤ d.fields.length := by
      have := numReq_add_numOpt d
      omega
    have hdec := decode_mkArgs d.fields req.params hrf hnp hlo hlen2
    have hmarsh := remarshal_core d.fields req.params hrf hnp hmt hlo hlen2
    refine ⟨⟨req.method, mkArgs d.fields req.params⟩, ?_, ?_⟩
    · have h1 : ¬ (req.params.length < numReq d) := by
        rw [numReq]
        omega
      have h2 : ¬ (d.fields.length < req.params.length) := by omega
      simp only [UnmarshalCmd, hfind]
      rw [if_neg (by simp [h1, h2])]
      rw [hdec]
    · have hml : (mkArgs d.fields req.params).length = d.fields.length :=
        mkArgs_length d.fields req.params hlen2
      simp only [MarshalCmd, hfind, hml, if_true, hmarsh]

/-- C1 witness: a getbalance command with account acct and minconf 6
marshals to params [acct, 6] and unmarshals back to itself, and the wire
request with those params unmarshals and re-marshals to itself. -/
theorem c1_roundtrip_witness :
    (∃ req, MarshalCmd "1.0" 1
        ⟨"getbalance", [.optVal (.str "acct"), .optVal (.num 6)]⟩ = .ok req
      ∧ UnmarshalCmd req
          = .ok ⟨"getbalance", [.optVal (.str "acct"), .optVal (.num 6)]⟩)
    ∧ (∃ cmd, UnmarshalCmd ⟨"1.0", "getbalance", [.str "acct", .num 6], 1⟩ = .ok cmd
      ∧ MarshalCmd "1.0" 1 cmd = .ok ⟨"1.0", "getbalance", [.str "acct", .num 6], 1⟩) :=
  ⟨c1_roundtrip.1 "1.0" 1 ⟨"getbalance", [.optVal (.str "acct"), .optVal (.num 6)]⟩
      getBalanceDescr (by decide) (by decide) (by decide) (by decide),
   c1_roundtrip.2 ⟨"1.0", "getbalance", [.str "acct", .num 6], 1⟩ getBalanceDescr
      (by decide) (by decide) (by decide) (by decide) (by decide) (by decide)⟩

/-- C5: both the generic constructor NewCmd and UnmarshalCmd reject any
argument or parameter count outside the closed interval from numRequired
to numRequired plus numOptional with the param-count error, and inside
that interval neither ever raises a count error: any failure that remains
is an invalid-type error. -/
theorem c5_param_count :
    (∀ (m : String) (args : List Arg) (d : CmdDescr),
      findDescr m = some d →
      (args.length < numReq d ∨ numReq d + numOpt d < args.length) →
      NewCmd m args = .error numParamsErr)
    ∧ (∀ (req : Request) (d : CmdDescr),
      findDescr req.method = some d →
      (req.params.length < numReq d ∨ numReq d + numOpt d < req.params.length) →
      UnmarshalCmd req = .error numParamsErr)
    ∧ (∀ (m : String) (args : List Arg) (d : CmdDescr) (e : Error),
      findDescr m = some d → requiredFirst d.fields = true →
      numReq d ≤ args.length → args.length ≤ numReq d + numOpt d →
      NewCmd m args = .error e → e.Code = ErrInvalidType)
    ∧ (∀ (req : Request) (d : CmdDescr) (e : Error),
      findDescr req.method = some d → requiredFirst d.fields = true →
      numReq d ≤ req.params.length → req.params.length ≤ numReq d + numOpt d →
      UnmarshalCmd req = .error e → e.Code = ErrInvalidType) := by
  refine ⟨?_, ?_, ?_, ?_⟩
  · intro m args d hfind hout
    have htot := numReq_add_numOpt d
    simp only [NewCmd, hfind]
    rw [if_pos (by
      simp only [Bool.or_eq_true, decide_eq_true_eq]
      omega)]
  · intro req d hfind hout
    have htot := numReq_add_numOpt d
    simp only [UnmarshalCmd, hfind]
    rw [if_pos (by
      simp only [Bool.or_eq_true, decide_eq_true_eq]
      omega)]
  · intro m args d e hfind hrf hlo hhi h
    have htot := numReq_add_numOpt d
    rw [numReq] at hlo
    have hle : args.length ≤ d.fields.length := by omega
    simp only [NewCmd, hfind] at h
    rw [if_neg (by
      simp only [Bool.or_eq_true, decide_eq_true_eq]
      rw [numReq]
      omega)] at h
    cases hcf : convFields d.fields args with
    | error e2 =>
      rw [hcf] at h
      cases h
      rw [convFields_error_code d.fields args e hrf hlo hle hcf]
      rfl
    | ok rest => rw [hcf] at h; cases h
  · intro req d e hfind hrf hlo hhi h
    have htot := numReq_add_numOpt d
    rw [numReq] at hlo
    have hle : req.params.length ≤ d.fields.length := by omega
    simp only [UnmarshalCmd, hfind] at h
    rw [if_neg (by
      simp only [Bool.or_eq_true, decide_eq_true_eq]
      rw [numReq]
      omega)] at h
    cases hdec : decodeFields d.fields req.params with
    | error e2 =>
      rw [hdec] at h
      cases h
      rw [decodeFields_error_code d.fields req.params e hrf hlo hle hdec]
      rfl
    | ok rest => rw [hdec] at h; cases h

/-- C5 witness: addnode requires two parameters, so zero arguments are
rejected with the param-count error by both paths, three parameters are
rejected by unmarshal, and an ill-typed first argument inside the bounds
yields an invalid-type code rather than a count error. -/
theorem c5_param_count_witness :
    NewCmd "addnode" [] = .error numParamsErr
    ∧ UnmarshalCmd ⟨"1.0", "addnode", [], 1⟩ = .error numParamsErr
    ∧ UnmarshalCmd ⟨"1.0", "addnode", [.str "a", .str "b", .str "c"], 1⟩
        = .error numParamsErr
    ∧ invalidTypeErr.Code = ErrInvalidType :=
  ⟨c5_param_count.1 "addnode" [] addNodeDescr (by decide) (by decide),
   c5_param_count.2.1 ⟨"1.0", "addnode", [], 1⟩ addNodeDescr (by decide) (by decide),
   c5_param_count.2.1 ⟨"1.0", "addnode", [.str "a", .str "b", .str "c"], 1⟩
      addNodeDescr (by decide) (by decide),
   c5_param_count.2.2.2 ⟨"1.0", "addnode", [.num 1, .str "b"], 1⟩ addNodeDescr
      invalidTypeErr (by decide) (by decide) (by decide) (by decide) (by decide)⟩

/-- C7: the ErrorCode display method returns the exact stable name of
every assigned code, no two assigned codes share a name, and every
unassigned value N renders as Unknown ErrorCode (N) with N in decimal,
including 0xffff which renders as Unknown ErrorCode (65535). -/
theorem c7_errorcode_display :
    (ErrorCode.display ErrDuplicateMethod = "ErrDuplicateMethod"
      ∧ ErrorCode.display ErrInvalidUsageFlags = "ErrInvalidUsageFlags"
      ∧ ErrorCode.display ErrInvalidType = "ErrInvalidType"
      ∧ ErrorCode.display ErrEmbeddedType = "ErrEmbeddedType"
      ∧ ErrorCode.display ErrUnexportedField = "ErrUnexportedField"
      ∧ ErrorCode.display ErrUnsupportedFieldType = "ErrUnsupportedFieldType"
      ∧ ErrorCode.display ErrNonOptionalField = "ErrNonOptionalField"
      ∧ ErrorCode.display ErrNonOptionalDefault = "ErrNonOptionalDefault"
      ∧ ErrorCode.display ErrMismatchedDefault = "ErrMismatchedDefault"
      ∧ ErrorCode.display ErrUnregisteredMethod = "ErrUnregisteredMethod"
      ∧ ErrorCode.display ErrNumParams = "ErrNumParams"
      ∧ ErrorCode.display ErrMissingDescription = "ErrMissingDescription")
    ∧ errorCodeStrings.Nodup
    ∧ (∀ c : ErrorCode, c < 0 ∨ TstNumErrorCodes ≤ c →
        ErrorCode.display c = "Unknown ErrorCode (" ++ toString c ++ ")")
    ∧ ErrorCode.display 65535 = "Unknown ErrorCode (65535)" := by
  refine ⟨by decide, by decide, ?_, by decide⟩
  intro c hc
  have hneg : ¬ (0 ≤ c ∧ c < TstNumErrorCodes) := by
    rw [TstNumErrorCodes]
    rcases hc with h | h
    · intro hcon
      exact absurd hcon.1 (not_le.mpr h)
    · rw [TstNumErrorCodes] at h
      intro hcon
      exact absurd hcon.2 (not_lt.mpr h)
  rw [ErrorCode.display, if_neg hneg]

/-- C7 witness: the unassigned negative value -5 renders in the decimal
fallback form. -/
theorem c7_errorcode_display_witness :
    ErrorCode.display (-5) = "Unknown ErrorCode (" ++ toString (-5 : ErrorCode) ++ ")" :=
  c7_errorcode_display.2.2.1 (-5) (Or.inl (by decide))

/-- C8: in the generic constructor a string argument is accepted for any
field whose declared kind is a nested object, an ordered sequence, or a
string-keyed mapping, and the text is parsed as JSON against that target
shape; concretely, NewCmd createrawtransaction given the two JSON texts of
the test yields the same command value as the typed constructor given the
corresponding parsed structures (the parsed input object gaining the
defaulted tree field 0, exactly as Go produces). -/
theorem c8_json_text_args :
    (∀ (s nm : String) (es : JShape) (o : Bool) (dn : Option JValue),
      convertArg ⟨nm, .jList es, o, dn⟩ (.text s) = parseNorm (.jList es) s)
    ∧ (∀ (s nm : String) (o : Bool) (dn : Option JValue),
      convertArg ⟨nm, .jMapFloat, o, dn⟩ (.text s) = parseNorm .jMapFloat s)
    ∧ (∀ (s nm : String) (fds : JFields) (o : Bool) (dn : Option JValue),
      convertArg ⟨nm, .jObjShape fds, o, dn⟩ (.text s) = parseNorm (.jObjShape fds) s)
    ∧ NewCmd "createrawtransaction"
        [.text "[\x7b\"txid\":\"123\",\"vout\":1\x7d]", .text "\x7b\"456\":0.0123\x7d"]
      = .ok (NewCreateRawTransactionCmd
          (.arr (.cons (.obj (.cons "txid" (.str "123")
            (.cons "vout" (.num 1) (.cons "tree" (.num 0) .nil)))) .nil))
          (.obj (.cons "456" (.num (mkRat 123 10000)) .nil))
          none none) := by
  exact ⟨fun _ _ _ _ _ => rfl, fun _ _ _ _ => rfl, fun _ _ _ _ _ => rfl, by decide⟩

/-- C9: MarshalCmd carries the supplied protocol version as a literal
string, echoes the id unchanged, and the rendered request is exactly the
envelope with the keys jsonrpc, method, params, id in that order. -/
theorem c9_wire_shape :
    ∀ (version : String) (id : Int) (cmd : CmdVal) (req : Request),
      MarshalCmd version id cmd = .ok req →
      req.jsonrpc = version ∧ req.id = id ∧ req.method = cmd.method ∧
      renderRequest req =
        "\x7b\"jsonrpc\":" ++ renderString version ++ ",\"method\":"
          ++ renderString cmd.method ++ ",\"params\":["
          ++ renderParams req.params ++ "],\"id\":" ++ toString id ++ "\x7d" := by
  intro version id cmd req h
  cases hfind : findDescr cmd.method with
  | none =>
    simp only [MarshalCmd, hfind] at h
    simp at h
  | some d =>
    simp only [MarshalCmd, hfind] at h
    by_cases hlen : cmd.args.length = d.fields.length
    · rw [if_pos hlen] at h
      cases hmp : marshalParams (d.fields.zip cmd.args) with
      | error e => rw [hmp] at h; simp at h
      | ok ps =>
        rw [hmp] at h
        cases h
        exact ⟨rfl, rfl, rfl, rfl⟩
    · rw [if_neg hlen] at h
      simp at h

/-- C9 witness: the addnode command of the test marshals to the exact byte
sequence recorded in TestChainSvrCmds. -/
theorem c9_wire_shape_witness :
    MarshalCmd "1.0" 1 ⟨"addnode", [.reqVal (.str "127.0.0.1"), .reqVal (.str "remove")]⟩
        = .ok ⟨"1.0", "addnode", [.str "127.0.0.1", .str "remove"], 1⟩
    ∧ (⟨"1.0", "addnode", [.str "127.0.0.1", .str "remove"], 1⟩ : Request).jsonrpc = "1.0"
    ∧ renderRequest ⟨"1.0", "addnode", [.str "127.0.0.1", .str "remove"], 1⟩
        = "\x7b\"jsonrpc\":\"1.0\",\"method\":\"addnode\",\"params\":[\"127.0.0.1\",\"remove\"],\"id\":1\x7d" := by
  refine ⟨by decide, ?_, by decide⟩
  exact (c9_wire_shape "1.0" 1
    ⟨"addnode", [.reqVal (.str "127.0.0.1"), .reqVal (.str "remove")]⟩
    ⟨"1.0", "addnode", [.str "127.0.0.1", .str "remove"], 1⟩ (by decide)).1

/-- C10: the Error method of the Error type returns exactly the message
field: the code does not influence the returned string, and the two test
vectors return their messages verbatim. -/
theorem c10_error_message :
    (∀ e : Error, Error.errorText e = e.Message)
    ∧ (∀ (ca cb : ErrorCode) (m : String),
        Error.errorText ⟨ca, m⟩ = Error.errorText ⟨cb, m⟩)
    ∧ Error.errorText ⟨0, "some error"⟩ = "some error"
    ∧ Error.errorText ⟨0, "human-readable error"⟩ = "human-readable error" :=
  ⟨fun _ => rfl, fun _ _ _ => rfl, rfl, rfl⟩

end Hxjson
